import Mathlib

/-!
# EasyString: a shallow embedding of `easy_string.c` / `easy_string.h`

This file embeds the core of the EasyString library (a small-string-optimized,
ownership-tracked byte buffer written in C) into Lean 4 and proves the
specification's claims about it.

Modelling conventions:

* Bytes are `Nat` (the C code compares them as unsigned chars; values are
  0..255 in any real execution, but nothing below depends on an upper bound).
* The C `String` is a union of `{char* begin; char* alloc_end;}` with a
  `char shortstr[sizeof(...)]` array, plus a `size_t size`.  We model the
  union as a sum (`StrBuf`): either the inline 16-byte array (`shortstr`) or
  a heap block.  The C code selects the active member purely by comparing
  `size` with `shortstring_max`; Invariant A (claim C1) states the selected
  member is always the active one, and is proved below for every operation.
* We model the common 64-bit layout: `sizeof(STRING_DATA) = 16`, so
  `shortstring_max = 15`.
* A heap block carries its allocation identity (`addr`), the bytes of the
  block (`data`), and the recorded capacity `cap = alloc_end - begin`.
  (`cap` can differ from the true block length for adopted pointers, exactly
  as in the C code, where `es_move_cstrn` sets `alloc_end = str + size`
  regardless of how many bytes the caller really allocated.)
* Uninitialized stack memory (`String result;`) is modelled as zero bytes;
  no claim reads a byte the C code leaves uninitialized.
* `malloc`/`free` effects are made explicit: mutating operations return,
  next to the new string, the list of requested allocation sizes and the
  list of freed block addresses, in program order (all copies in the C code
  complete before any `free` on the same path, and the returned `frees`
  list correspondingly comes last).
* A C `StringRef` is `{const char* begin; size_t size}`.  We model the
  pointer as a nullness flag plus the byte region it can reach (`data`);
  `size` is stored separately since the two need not agree
  (`es_tempn(NULL, 5)` really produces a size-5 ref onto the static empty
  string, see claim C10).
-/

namespace EasyString

/-- The value of `sizeof(es_empty_string.shortstr)` on the modelled 64-bit
platform: two 8-byte pointers. -/
def shortstrSize : Nat := 16

/-- C: `const static size_t shortstring_max = sizeof(es_empty_string.shortstr) - 1;` -/
def shortstring_max : Nat := shortstrSize - 1

/-- C: `static inline bool shortstring(size_t size)
{ return size <= shortstring_max; }` -/
def shortstring (size : Nat) : Bool := size ≤ shortstring_max

/-- A heap block: allocation identity, the bytes of the block, and the
recorded capacity (`alloc_end - begin`). -/
structure HeapBuf where
  addr : Nat
  data : List Nat
  cap : Nat
  deriving Repr, DecidableEq

/-- The union inside the C `String`: either the inline `shortstr` array or
the `{begin, alloc_end}` pointer pair (with the block it points to). -/
inductive StrBuf where
  | shortstr (buf : List Nat)
  | heap (h : HeapBuf)
  deriving Repr, DecidableEq

/-- The C `String` value: the union plus `size_t size`. -/
structure EString where
  buf : StrBuf
  size : Nat
  deriving Repr, DecidableEq

/-- C: `const static String es_empty_string;` — zero-initialized, hence
size 0 with an all-zero inline array. -/
def es_empty_string : EString :=
  ⟨.shortstr (List.replicate shortstrSize 0), 0⟩

/-- C: `static inline bool shortstring_optimized(const String* str)
{ return shortstring(str->size); }` -/
def shortstring_optimized (s : EString) : Bool := shortstring s.size

/-- The bytes of the union member that the constructor says is active.
Under Invariant A (claim C1) this is exactly what `es_cstr`/`es_cstrc`
return a pointer to, since they select the member by
`shortstring_optimized`. -/
def activeBuf (s : EString) : List Nat :=
  match s.buf with
  | .shortstr b => b
  | .heap h => h.data

/-- The meaningful bytes of a string: the first `size` bytes behind
`es_cstr`. -/
def esBytes (s : EString) : List Nat := (activeBuf s).take s.size

/-- Invariant A: the active union member is the one `shortstring(size)`
selects — the representation is a pure function of `size`. -/
def wf (s : EString) : Prop :=
  match s.buf with
  | .shortstr _ => shortstring s.size = true
  | .heap _ => shortstring s.size = false

instance (s : EString) : Decidable (wf s) := by
  unfold wf; cases s.buf <;> infer_instance

/-- Capacity sanity for reading/writing through the model: the inline array
has its fixed 16 bytes, and a heap block really has at least `cap` bytes,
of which at least `size` are in use. -/
def goodCap (s : EString) : Prop :=
  match s.buf with
  | .shortstr b => b.length = shortstrSize
  | .heap h => h.cap ≤ h.data.length ∧ s.size ≤ h.cap

instance (s : EString) : Decidable (goodCap s) := by
  unfold goodCap; cases s.buf <;> infer_instance

/-- C: `static inline size_t available(const String* str)` — total allocated
size including the nul terminator slot. -/
def available (s : EString) : Nat :=
  if shortstring_optimized s then shortstrSize
  else match s.buf with
    | .heap h => h.cap
    | .shortstr _ => 0   -- unreachable under Invariant A

/-- C: `void es_free(String* str)
{ if(!shortstring_optimized(str)) free(str->begin); }` — returns the list of
freed block addresses. -/
def es_free (s : EString) : List Nat :=
  if shortstring_optimized s then []
  else match s.buf with
    | .heap h => [h.addr]
    | .shortstr _ => []   -- unreachable under Invariant A

/-- Overwrite, in the style of C `memcpy`/`memmove`, of `dst` starting at `off` with the
bytes of `src` (source snapshotted first, so it also models `memmove` on
overlapping ranges). -/
def blit (dst : List Nat) (off : Nat) (src : List Nat) : List Nat :=
  match src with
  | [] => dst
  | b :: rest => blit (dst.set off b) (off + 1) rest

/-- Write `src` at offset `off` through the pointer into `s`'s active
buffer (models `memcpy(mem + off, src, len)` where `mem = es_cstr(s)`). -/
def memcpyInto (s : EString) (off : Nat) (src : List Nat) : EString :=
  match s.buf with
  | .shortstr b => ⟨.shortstr (blit b off src), s.size⟩
  | .heap h => ⟨.heap ⟨h.addr, blit h.data off src, h.cap⟩, s.size⟩

/-- Write the single byte `v` at index `i` of `s`'s active buffer
(models `mem[i] = v`). -/
def memSet (s : EString) (i v : Nat) : EString :=
  match s.buf with
  | .shortstr b => ⟨.shortstr (b.set i v), s.size⟩
  | .heap h => ⟨.heap ⟨h.addr, h.data.set i v, h.cap⟩, s.size⟩

/-- C: `static inline char* autoalloc(String* str, size_t size, size_t hint)`.
Sets `str->size = size`; if not a shortstring, mallocs
`max(hint, size+1)` bytes and records `begin`/`alloc_end`; otherwise uses
the inline array.  Finally writes `mem[size] = '\0'`.  `addr` is the fresh
address malloc returns; the function is always called on a fresh
uninitialized `String` (modelled as zero bytes). -/
def autoalloc (size hint addr : Nat) : EString :=
  if shortstring size then
    ⟨.shortstr ((List.replicate shortstrSize 0).set size 0), size⟩
  else
    let alloc_amount := if hint > size + 1 then hint else size + 1
    ⟨.heap ⟨addr, (List.replicate alloc_amount 0).set size 0, alloc_amount⟩, size⟩

/-- The size `autoalloc` passes to `malloc` when it allocates. -/
def autoallocAmount (size hint : Nat) : Nat :=
  if hint > size + 1 then hint else size + 1

/-- A C `StringRef`: nullness of `begin`, the byte region `begin` points
into, and the `size` field. -/
structure StringRef where
  isNull : Bool
  data : List Nat
  size : Nat
  deriving Repr, DecidableEq

/-- The byte span a view denotes: the first `size` bytes behind its
pointer. -/
def refBytes (r : StringRef) : List Nat := r.data.take r.size

/-- C: `StringRef es_tempn(const char* str, size_t size)
{ StringRef result = { (str && size ? str : ""), size }; return result; }`.
The static `""` literal is one zero byte. -/
def es_tempn (isNull : Bool) (mem : List Nat) (size : Nat) : StringRef :=
  if isNull = false ∧ size ≠ 0 then ⟨false, mem, size⟩
  else ⟨false, [0], size⟩

/-- C: `StringRef es_ref(const String* str)
{ return es_tempn( ES_STRCNSTSIZE(str) ); }` — the pointer `es_cstrc`
returns is never null (it is either the inline array or `begin`). -/
def es_ref (s : EString) : StringRef :=
  es_tempn false (activeBuf s) s.size

/-- C `strlen`: bytes before the first zero byte. -/
def cstrlen (mem : List Nat) : Nat := (mem.takeWhile (· ≠ 0)).length

/-- Header: `static inline StringRef es_temp(const char* str)
{ return es_tempn(str, str ? strlen(str) : 0 ); }` -/
def es_temp (isNull : Bool) (mem : List Nat) : StringRef :=
  es_tempn isNull mem (if isNull then 0 else cstrlen mem)

/-- C: `String es_copy(StringRef str)` — autoalloc then
`memcpy(mem, str.begin, str.size)`. -/
def es_copy (r : StringRef) (addr : Nat) : EString :=
  memcpyInto (autoalloc r.size 0 addr) 0 (refBytes r)

/-- C: `String es_move(String* str)` — returns `(result, new value of *str)`. -/
def es_move (s : EString) : EString × EString :=
  (s, if shortstring_optimized s then s else es_empty_string)

/-- Effects of an operation: sizes requested from `malloc` and addresses
passed to `free`, in program order. -/
structure Effect where
  allocs : List Nat
  frees : List Nat
  deriving Repr, DecidableEq

/-- C: `String es_move_cstrn(char* str, size_t size)` — adopt the heap
pointer `⟨addr, data⟩` (the caller's block).  Inline case copies and frees
the pointer; heap case stores `begin = str`, `alloc_end = str + size`. -/
def es_move_cstrn (addr : Nat) (data : List Nat) (size : Nat) :
    EString × Effect :=
  if shortstring size then
    ({ buf := .shortstr ((blit (List.replicate shortstrSize 0) 0
                (data.take size)).set size 0),
       size := size },
     ⟨[], [addr]⟩)
  else
    (⟨.heap ⟨addr, data, size⟩, size⟩, ⟨[], []⟩)

/-- C: `String es_printf(const char* format, ...)`.  The formatting engine
is abstracted by its output: `out` is the byte sequence `vsnprintf` would
produce (`out = []` also covers the negative-return error case, which the
code folds into "empty"). -/
def es_printf (out : List Nat) (addr : Nat) : EString :=
  if out.length = 0 then es_empty_string
  else memcpyInto (autoalloc out.length 0 addr) 0 out

/-- C: `static inline size_t min_size(size_t x, size_t y)` -/
def min_size (x y : Nat) : Nat := if x < y then x else y

/-- C: `static inline void update_slice_indexes(size_t str_size,
size_t* offset, size_t* size)` — returns the clamped `*size` (the code
never modifies `*offset`). -/
def update_slice_indexes (str_size offset size : Nat) : Nat :=
  if offset ≥ str_size then 0
  else min_size size (str_size - offset)

/-- C: `StringRef es_slice(StringRef ref, size_t offset, size_t size)`.
`ref.begin + offset` is null only when `ref.begin` is null and the offset
is zero; its reachable region is `ref.data` minus the first `offset`
bytes. -/
def es_slice (ref : StringRef) (offset size : Nat) : StringRef :=
  let size' := update_slice_indexes ref.size offset size
  es_tempn (ref.isNull && offset == 0) (ref.data.drop offset) size'

/-- C: `void es_slices(String* str, size_t offset, size_t size)` —
slice-in-place.  Returns the new string and the effect (it never
allocates; it frees the old block when shrinking a heap string into the
inline array, and on the empty path via `es_clear`). -/
def es_slices (s : EString) (offset size : Nat) : EString × Effect :=
  let size' := update_slice_indexes s.size offset size
  if size' = 0 then
    -- es_clear(str): es_free then *str = es_empty_string
    (es_empty_string, ⟨[], es_free s⟩)
  else if shortstring size' ∧ shortstring_optimized s = false then
    -- memcpy(str->shortstr, str->begin + offset, size');
    -- str->shortstr[size'] = '\0'; free(ptr);
    ({ buf := .shortstr ((blit (List.replicate shortstrSize 0) 0
                 (((activeBuf s).drop offset).take size')).set size' 0),
       size := size' },
     ⟨[], match s.buf with
          | .heap h => [h.addr]
          | .shortstr _ => []⟩)   -- unreachable under Invariant A
  else
    -- char* mem = es_cstr(str); memmove(mem, mem + offset, size');
    -- mem[size'] = '\0'; str->size = size';
    let moved := memcpyInto s 0 (((activeBuf s).drop offset).take size')
    let term := memSet moved size' 0
    ({ buf := term.buf, size := size' }, ⟨[], []⟩)

/-- C: `String es_cat(StringRef str1, StringRef str2)` — fresh allocation of
exactly `str1.size + str2.size` (+1 for the terminator), then two
`memcpy`s. -/
def es_cat (r1 r2 : StringRef) (addr : Nat) : EString :=
  let dest := autoalloc (r1.size + r2.size) 0 addr
  let dest := memcpyInto dest 0 (refBytes r1)
  memcpyInto dest r1.size (refBytes r2)

/-- C: `void es_append(String* str1, const StringRef str2)`.  Returns the
new string and the effect. -/
def es_append (s1 : EString) (s2 : StringRef) (addr : Nat) :
    EString × Effect :=
  if s2.size = 0 then (s1, ⟨[], []⟩)
  else
    let final_size := s1.size + s2.size
    if available s1 < final_size + 1 then
      -- realloc path: autoalloc with hint = available(str1) * 2, copy old
      -- contents, append new bytes, write terminator, then free old block
      let result := autoalloc final_size (available s1 * 2) addr
      let result := memcpyInto result 0 (esBytes s1)
      let result := memcpyInto result s1.size (refBytes s2)
      let result := memSet result final_size 0
      (result, ⟨[autoallocAmount final_size (available s1 * 2)], es_free s1⟩)
    else
      -- in-place path
      let s := memcpyInto s1 s1.size (refBytes s2)
      let s := memSet s final_size 0
      ({ buf := s.buf, size := final_size }, ⟨[], []⟩)

/-- Two union states use the same storage: both inline, or both the same
heap block (same allocation identity and capacity). -/
def sameStorage (a b : StrBuf) : Prop :=
  match a, b with
  | .shortstr _, .shortstr _ => True
  | .heap h, .heap h' => h.addr = h'.addr ∧ h.cap = h'.cap
  | _, _ => False

/-- The string has a sentinel zero byte immediately after its `size`
meaningful bytes. -/
def nullTerminated (s : EString) : Prop :=
  (activeBuf s)[s.size]? = some 0

instance (s : EString) : Decidable (nullTerminated s) := by
  unfold nullTerminated; infer_instance

/-- C: `int es_sizecmp(size_t str1, size_t str2)
{ return str1 < str2 ? -1 : str1 > str2 ? 1 : 0; }` -/
def es_sizecmp (str1 str2 : Nat) : Int :=
  if str1 < str2 then -1 else if str1 > str2 then 1 else 0

/-- C `memcmp(a, b, n)` for byte buffers, modelled as the difference of the
first differing pair of unsigned bytes (the classic implementation; C only
specifies the sign).  Buffers shorter than `n` stop the scan (reading past
either buffer would be undefined behaviour in C). -/
def memcmp : List Nat → List Nat → Nat → Int
  | _, _, 0 => 0
  | [], _, _ + 1 => 0
  | _, [], _ + 1 => 0
  | a :: as, b :: bs, n + 1 =>
      if a = b then memcmp as bs n else (a : Int) - (b : Int)

/-- C: `int es_compare(StringRef str1, StringRef str2)` — size first, then
`memcmp` over `str1.size` bytes. -/
def es_compare (r1 r2 : StringRef) : Int :=
  let sizecmp := es_sizecmp r1.size r2.size
  if sizecmp ≠ 0 then sizecmp else memcmp r1.data r2.data r1.size

/-- C: `static inline int char_value(char c)
{ return c < '0' || c > '9' ? -1 : c - '0'; }` (`'0'` = 48, `'9'` = 57). -/
def char_value (c : Nat) : Int :=
  if c < 48 ∨ c > 57 then -1 else (c : Int) - 48

/-- The modulus `ULONG_MAX + 1` of the modelled 64-bit `unsigned long`. -/
def ulongMod : Nat := 2 ^ 64

/-- The loop of `es_toul`, over the remaining bytes, the running `count`
and the iteration counter `i`.  `none` models `return 1` (overflow);
`some (count, i)` models falling out of the loop (end of string or a
non-digit byte). -/
def toulGo : List Nat → Nat → Nat → Option (Nat × Nat)
  | [], count, i => some (count, i)
  | c :: rest, count, i =>
      let decimal := char_value c
      if decimal = -1 then some (count, i)
      else
        let old_count := count
        let count1 := count * 10 % ulongMod
        if count1 / 10 ≠ old_count then none
        else
          let count2 := (count1 + decimal.toNat) % ulongMod
          if count2 < old_count then none
          else toulGo rest count2 (i + 1)

/-- C: `int es_toul(unsigned long* result, StringRef str)`.  `none` models
a nonzero return (parse failure, `*result` left unwritten); `some v`
models return 0 with `*result = v`. -/
def es_toul (r : StringRef) : Option Nat :=
  match toulGo (refBytes r) 0 0 with
  | none => none
  | some (count, i) => if i = 0 then none else some count

/-- Spec-side helper: is a byte an ASCII decimal digit? -/
def isDigit (c : Nat) : Bool := 48 ≤ c ∧ c ≤ 57

/-- Spec-side helper: value of a digit string with accumulator `acc`. -/
def digitsVal (acc : Nat) : List Nat → Nat
  | [] => acc
  | c :: rest => digitsVal (acc * 10 + (c - 48)) rest

/-! ### Helper lemmas about `blit` -/

theorem blit_length (src : List Nat) :
    ∀ (dst : List Nat) (off : Nat), (blit dst off src).length = dst.length := by
  induction src with
  | nil => intro dst off; rfl
  | cons b rest ih =>
      intro dst off
      rw [blit, ih, List.length_set]

theorem blit_eq (src : List Nat) :
    ∀ (dst : List Nat) (off : Nat), off + src.length ≤ dst.length →
      blit dst off src =
        dst.take off ++ src ++ dst.drop (off + src.length) := by
  induction src with
  | nil =>
      intro dst off _
      simp [blit, List.take_append_drop]
  | cons b rest ih =>
      intro dst off hlen
      have hofflt : off < dst.length := by
        have := hlen; simp [List.length_cons] at this; omega
      rw [blit, ih _ (off + 1) (by rw [List.length_set]; simp at hlen ⊢; omega)]
      rw [List.set_eq_take_cons_drop b hofflt]
      have htk : ((dst.take off ++ b :: dst.drop (off + 1)).take (off + 1))
          = dst.take off ++ [b] := by
        rw [List.take_append_eq_append_take]
        have h1 : (dst.take off).length = off := List.length_take_of_le (le_of_lt hofflt)
        rw [h1]
        have : off + 1 - off = 1 := by omega
        rw [List.take_of_length_le (by rw [h1]; omega), this]
        rfl
      have hdp : ((dst.take off ++ b :: dst.drop (off + 1)).drop (off + 1 + rest.length))
          = dst.drop (off + (b :: rest).length) := by
        rw [List.drop_append_eq_append_drop]
        have h1 : (dst.take off).length = off := List.length_take_of_le (le_of_lt hofflt)
        rw [h1]
        have h2 : off + 1 + rest.length - off = 1 + rest.length := by omega
        rw [List.drop_of_length_le (by rw [h1]; omega), h2]
        have h3 : (1 : Nat) + rest.length = rest.length + 1 := by omega
        rw [List.nil_append, h3, List.drop_succ_cons, List.drop_drop]
        congr 1
        simp
        omega
      rw [htk, hdp]
      simp

/-! ### Structural lemmas about the model's primitive operations -/

theorem activeBuf_memcpyInto (s : EString) (off : Nat) (src : List Nat) :
    activeBuf (memcpyInto s off src) = blit (activeBuf s) off src := by
  cases h : s.buf <;> simp [memcpyInto, activeBuf, h]

theorem size_memcpyInto (s : EString) (off : Nat) (src : List Nat) :
    (memcpyInto s off src).size = s.size := by
  cases h : s.buf <;> simp [memcpyInto, h]

theorem activeBuf_memSet (s : EString) (i v : Nat) :
    activeBuf (memSet s i v) = (activeBuf s).set i v := by
  cases h : s.buf <;> simp [memSet, activeBuf, h]

theorem size_memSet (s : EString) (i v : Nat) :
    (memSet s i v).size = s.size := by
  cases h : s.buf <;> simp [memSet, h]

theorem autoalloc_size (size hint addr : Nat) :
    (autoalloc size hint addr).size = size := by
  unfold autoalloc
  split <;> rfl

theorem autoalloc_wf (size hint addr : Nat) : wf (autoalloc size hint addr) := by
  unfold autoalloc wf
  by_cases h : shortstring size = true <;> simp [h]

theorem autoalloc_activeBuf (size hint addr : Nat) :
    activeBuf (autoalloc size hint addr) =
      List.replicate (if shortstring size then shortstrSize
                      else autoallocAmount size hint) 0 := by
  unfold autoalloc activeBuf autoallocAmount
  by_cases h : shortstring size = true <;> simp [h]

theorem autoalloc_buf_length (size hint addr : Nat) :
    size + 1 ≤ (activeBuf (autoalloc size hint addr)).length := by
  rw [autoalloc_activeBuf, List.length_replicate]
  cases h : shortstring size with
  | true =>
      have : size ≤ 15 := by
        simpa [shortstring, shortstring_max, shortstrSize] using h
      simp [h, shortstrSize]
      omega
  | false =>
      simp [h, autoallocAmount]
      split <;> omega

theorem autoalloc_goodCap (size hint addr : Nat) :
    goodCap (autoalloc size hint addr) := by
  unfold autoalloc goodCap
  cases h : shortstring size with
  | true => simp [h, shortstrSize]
  | false =>
      simp [h, autoallocAmount]
      split <;> omega

theorem wf_memcpyInto (s : EString) (off : Nat) (src : List Nat)
    (h : wf s) : wf (memcpyInto s off src) := by
  unfold wf at h ⊢
  cases hb : s.buf <;> simp [memcpyInto, hb] <;> rw [hb] at h <;>
    simpa [size_memcpyInto] using h

theorem wf_memSet (s : EString) (i v : Nat) (h : wf s) : wf (memSet s i v) := by
  unfold wf at h ⊢
  cases hb : s.buf <;> simp [memSet, hb] <;> rw [hb] at h <;>
    simpa [size_memSet] using h

theorem wf_empty : wf es_empty_string := by
  unfold wf es_empty_string shortstring shortstring_max shortstrSize
  simp

theorem esBytes_empty : esBytes es_empty_string = [] := by
  simp [esBytes, es_empty_string]

theorem take_blit_zero (dst src : List Nat) (h : src.length ≤ dst.length) :
    (blit dst 0 src).take src.length = src := by
  rw [blit_eq src dst 0 (by simpa using h)]
  simp [List.take_append_eq_append_take]

theorem blit_zero_eq (dst src : List Nat) (h : src.length ≤ dst.length) :
    blit dst 0 src = src ++ dst.drop src.length := by
  rw [blit_eq src dst 0 (by simpa using h)]
  simp

theorem take_blit_zero2 (dst src : List Nat) (k : Nat)
    (hk : src.length = k) (h : src.length ≤ dst.length) :
    (blit dst 0 src).take k = src := by
  subst hk
  exact take_blit_zero dst src h

theorem take_blit_blit (dst a b : List Nat)
    (h : a.length + b.length ≤ dst.length) :
    ((blit (blit dst 0 a) a.length b).take (a.length + b.length)) = a ++ b := by
  have h1 : blit dst 0 a = a ++ dst.drop a.length :=
    blit_zero_eq dst a (by omega)
  have hlen : (blit dst 0 a).length = dst.length := blit_length a dst 0
  rw [blit_eq b (blit dst 0 a) a.length (by omega), h1]
  rw [List.take_append_eq_append_take]
  have htk : (a ++ dst.drop a.length).take a.length = a := by
    rw [List.take_append_eq_append_take]
    simp
  rw [htk]
  rw [List.take_append_eq_append_take]
  simp

/-- Writing the terminator after the content writes does not disturb the
first `size` bytes. -/
theorem take_set_self (l : List Nat) (n v : Nat) :
    (l.set n v).take n = l.take n := by
  rw [List.set_take]
  apply List.set_eq_of_length_le
  simp

theorem es_tempn_isNull (isNull : Bool) (mem : List Nat) (n : Nat) :
    (es_tempn isNull mem n).isNull = false := by
  unfold es_tempn; split <;> rfl

/-! ### The claims -/

/-- Claim C10: the view returned by `es_tempn` — and hence by `es_ref` and
`es_temp` — always has a non-null data pointer; when the incoming pointer
is null or the requested size is 0, the pointer is replaced by a pointer
to the static empty string `""` while the size field keeps the caller's
value, so a zero-size request always yields the canonical empty view with
a valid, dereferenceable pointer. -/
theorem claim_C10 (isNull : Bool) (mem : List Nat) (n : Nat) :
    (es_tempn isNull mem n).isNull = false ∧
    (es_tempn isNull mem n).size = n ∧
    ((isNull = true ∨ n = 0) → (es_tempn isNull mem n).data = [0]) ∧
    es_tempn isNull mem 0 = ⟨false, [0], 0⟩ ∧
    (es_tempn isNull mem 0).data ≠ [] ∧
    (∀ s : EString, (es_ref s).isNull = false) ∧
    (es_temp isNull mem).isNull = false := by
  refine ⟨es_tempn_isNull _ _ _,
          by unfold es_tempn; split <;> rfl,
          ?_,
          by simp [es_tempn],
          by simp [es_tempn],
          fun s => es_tempn_isNull _ _ _,
          by unfold es_temp; exact es_tempn_isNull _ _ _⟩
  intro h
  unfold es_tempn
  rcases h with h | h <;> simp [h]

/-- Claim C4: `es_move` transfers the header verbatim to the result; a
heap-backed source (one whose size exceeds the inline threshold) is reset
to the canonical empty state, so a subsequent `es_free` on it frees
nothing (no double free) and none of its prior bytes remain exposed; an
inline source is a plain value copy and is left unchanged. -/
theorem claim_C4 (a : EString) :
    (es_move a).1 = a ∧
    (shortstring a.size = false →
      (es_move a).2 = es_empty_string ∧
      es_free (es_move a).2 = [] ∧
      (es_move a).2.size = 0 ∧
      esBytes (es_move a).2 = []) ∧
    (shortstring a.size = true → (es_move a).2 = a) := by
  refine ⟨rfl, ?_, ?_⟩ <;> intro h <;>
    simp [es_move, shortstring_optimized, h]
  exact ⟨by simp [es_free, shortstring_optimized, es_empty_string,
                  shortstring, shortstring_max, shortstrSize],
         rfl, esBytes_empty⟩

/-- Claim C5: `es_move_cstrn(p, n)` takes ownership of `p` without copying
when `n` exceeds the inline threshold (no free), and otherwise copies the
`n` bytes into inline storage and immediately frees `p`; the resulting
representation depends only on `n`, never on how the memory was
produced. -/
theorem claim_C5 (addr : Nat) (data : List Nat) (n : Nat) :
    (shortstring n = false →
      (es_move_cstrn addr data n).1 = ⟨.heap ⟨addr, data, n⟩, n⟩ ∧
      (es_move_cstrn addr data n).2.frees = []) ∧
    (shortstring n = true →
      (∃ b, (es_move_cstrn addr data n).1.buf = .shortstr b) ∧
      (es_move_cstrn addr data n).2.frees = [addr] ∧
      (n ≤ data.length →
        esBytes (es_move_cstrn addr data n).1 = data.take n)) ∧
    wf (es_move_cstrn addr data n).1 ∧
    (es_move_cstrn addr data n).1.size = n := by
  refine ⟨fun h => by simp [es_move_cstrn, h], fun h => ?_, ?_, ?_⟩
  · refine ⟨⟨(blit (List.replicate shortstrSize 0) 0 (data.take n)).set n 0,
              by simp [es_move_cstrn, h]⟩,
            by simp [es_move_cstrn, h], fun hlen => ?_⟩
    have hn : n ≤ 15 := by
      simpa [shortstring, shortstring_max, shortstrSize] using h
    have hsrc : (data.take n).length = n := by
      simp [List.length_take]; omega
    simp only [es_move_cstrn, h, if_true, esBytes, activeBuf]
    rw [take_set_self]
    rw [blit_zero_eq _ _ (by simp [hsrc, shortstrSize]; omega)]
    rw [List.take_append_eq_append_take]
    simp [hsrc]
  · unfold es_move_cstrn wf
    cases h : shortstring n <;> simp [h]
  · unfold es_move_cstrn
    cases h : shortstring n <;> simp [h]

/-- Claim C6: `es_slice` never fails: offsets at or past the end give the
canonical empty view, otherwise the result references the view's bytes
starting at the offset with length `min n (r.size - o)`; the operation is
pure (no allocation, `r` untouched — it is a plain function of its
arguments in this model). -/
theorem claim_C6 (r : StringRef) (o n : Nat) (hr : r.isNull = false) :
    (r.size ≤ o → es_slice r o n = ⟨false, [0], 0⟩) ∧
    (o < r.size →
      (es_slice r o n).size = min n (r.size - o) ∧
      refBytes (es_slice r o n) = ((refBytes r).drop o).take n) ∧
    (es_slice r o n).isNull = false := by
  refine ⟨fun h => ?_, fun h => ?_, ?_⟩
  · simp [es_slice, update_slice_indexes, h, es_tempn]
  · have hclamp : update_slice_indexes r.size o n = min n (r.size - o) := by
      unfold update_slice_indexes min_size
      rw [if_neg (by omega)]
      split <;> omega
    have hs : es_slice r o n
        = es_tempn (r.isNull && o == 0) (r.data.drop o) (min n (r.size - o)) := by
      unfold es_slice
      rw [hclamp]
    by_cases hz : min n (r.size - o) = 0
    · have hn : n = 0 := by omega
      rw [hs, hz]
      exact ⟨by simp [es_tempn, hz], by simp [es_tempn, refBytes, hn]⟩
    · have hcond : (r.isNull && o == 0) = false := by simp [hr]
      rw [hs]
      unfold es_tempn
      rw [if_pos ⟨hcond, hz⟩]
      refine ⟨rfl, ?_⟩
      show (r.data.drop o).take (min n (r.size - o))
          = ((r.data.take r.size).drop o).take n
      rw [List.drop_take, List.take_take]
  · unfold es_slice
    exact es_tempn_isNull _ _ _

theorem update_le (m o n : Nat) : update_slice_indexes m o n ≤ m := by
  unfold update_slice_indexes min_size
  split
  · omega
  · split <;> omega

theorem wf_es_copy (r : StringRef) (addr : Nat) : wf (es_copy r addr) :=
  wf_memcpyInto _ _ _ (autoalloc_wf _ _ _)

theorem shortstring_le (n : Nat) (h : shortstring n = true) : n ≤ 15 := by
  simpa [shortstring, shortstring_max, shortstrSize] using h

theorem shortstring_gt (n : Nat) (h : shortstring n = false) : 15 < n := by
  simpa [shortstring, shortstring_max, shortstrSize] using h

theorem wf_es_append (s : EString) (v : StringRef) (addr : Nat) (h : wf s) :
    wf (es_append s v addr).1 := by
  by_cases h0 : v.size = 0
  · simpa [es_append, h0] using h
  · simp only [es_append]
    rw [if_neg h0]
    split
    · exact wf_memSet _ _ _
        (wf_memcpyInto _ _ _ (wf_memcpyInto _ _ _ (autoalloc_wf _ _ _)))
    · rename_i hcap
      unfold wf at h ⊢
      cases hb : s.buf with
      | shortstr b =>
          rw [hb] at h
          have hav : available s = shortstrSize := by
            unfold available shortstring_optimized
            rw [if_pos h]
          rw [hav] at hcap
          simp only [memSet, memcpyInto, hb]
          have : s.size + v.size ≤ 15 := by
            unfold shortstrSize at hcap
            omega
          simpa [shortstring, shortstring_max, shortstrSize] using this
      | heap hh =>
          rw [hb] at h
          have := shortstring_gt _ h
          simp only [memSet, memcpyInto, hb]
          have : ¬ (s.size + v.size ≤ 15) := by omega
          simpa [shortstring, shortstring_max, shortstrSize] using this

theorem wf_es_slices (s : EString) (o n : Nat) (h : wf s) :
    wf (es_slices s o n).1 := by
  have hle : update_slice_indexes s.size o n ≤ s.size := update_le _ _ _
  simp only [es_slices]
  by_cases hz : update_slice_indexes s.size o n = 0
  · simp [hz, wf_empty]
  · rw [if_neg hz]
    by_cases hc : shortstring (update_slice_indexes s.size o n) = true ∧
        shortstring_optimized s = false
    · rw [if_pos hc]
      unfold wf
      simpa using hc.1
    · rw [if_neg hc]
      unfold wf at h ⊢
      cases hb : s.buf with
      | shortstr b =>
          rw [hb] at h
          have hs15 := shortstring_le _ h
          simp only [memSet, memcpyInto, hb]
          have : update_slice_indexes s.size o n ≤ 15 := by omega
          simpa [shortstring, shortstring_max, shortstrSize] using this
      | heap hh =>
          rw [hb] at h
          have hsso : shortstring_optimized s = false := by
            unfold shortstring_optimized
            exact h
          cases hcn : shortstring (update_slice_indexes s.size o n) with
          | true => exact absurd ⟨hcn, hsso⟩ hc
          | false =>
              simp only [memSet, memcpyInto, hb]

/-- Claim C1: a String holding `L` bytes is inline iff `L ≤ shortstring_max`
(`sizeof(shortstr) - 1`); the representation is derivable purely from the
size field, and copy, move, adopt, append and slice-in-place all leave the
buffer satisfying this correspondence (Invariant A, `wf`). -/
theorem claim_C1 :
    (∀ s : EString, wf s →
      ((∃ b, s.buf = StrBuf.shortstr b) ↔ s.size ≤ shortstring_max)) ∧
    wf es_empty_string ∧
    (∀ r addr, wf (es_copy r addr)) ∧
    (∀ s : EString, wf s → wf (es_move s).1 ∧ wf (es_move s).2) ∧
    (∀ addr data n, wf (es_move_cstrn addr data n).1) ∧
    (∀ s v addr, wf s → wf (es_append s v addr).1) ∧
    (∀ s o n, wf s → wf (es_slices s o n).1) := by
  refine ⟨?_, wf_empty, wf_es_copy, ?_, ?_, wf_es_append, wf_es_slices⟩
  · intro s hs
    unfold wf at hs
    cases hb : s.buf with
    | shortstr b =>
        rw [hb] at hs
        have := shortstring_le _ hs
        simp [shortstring_max, shortstrSize]
        omega
    | heap hh =>
        rw [hb] at hs
        have := shortstring_gt _ hs
        constructor
        · rintro ⟨b, hb'⟩
          exact absurd hb' (by simp [hb])
        · intro hle
          unfold shortstring_max shortstrSize at hle
          omega
  · intro s hs
    unfold es_move
    cases hso : shortstring_optimized s <;> simp [hso, hs, wf_empty]
  · intro addr data n
    unfold es_move_cstrn wf
    cases h : shortstring n <;> simp [h]

theorem memcmp_zero (a b : List Nat) : memcmp a b 0 = 0 := by
  cases a <;> cases b <;> rfl

theorem memcmp_nil_left (b : List Nat) (n : Nat) : memcmp [] b n = 0 := by
  cases b <;> cases n <;> rfl

theorem memcmp_nil_right (a : List Nat) (n : Nat) : memcmp a [] n = 0 := by
  cases a <;> cases n <;> rfl

theorem memcmp_cons (x y : Nat) (xs ys : List Nat) (n : Nat) :
    memcmp (x :: xs) (y :: ys) (n + 1) =
      if x = y then memcmp xs ys n else (x : Int) - (y : Int) := rfl

theorem memcmp_antisym (a b : List Nat) (n : Nat) :
    memcmp a b n = -memcmp b a n := by
  induction n generalizing a b with
  | zero => rw [memcmp_zero, memcmp_zero]; rfl
  | succ n ih =>
      cases a with
      | nil => rw [memcmp_nil_left, memcmp_nil_right]; rfl
      | cons x xs =>
          cases b with
          | nil => rw [memcmp_nil_left, memcmp_nil_right]; rfl
          | cons y ys =>
              rw [memcmp_cons, memcmp_cons]
              by_cases hxy : x = y
              · rw [if_pos hxy, if_pos hxy.symm]
                exact ih xs ys
              · rw [if_neg hxy, if_neg (fun hh => hxy hh.symm)]
                omega

theorem memcmp_eq_zero (a b : List Nat) (n : Nat)
    (ha : n ≤ a.length) (hb : n ≤ b.length) :
    memcmp a b n = 0 ↔ a.take n = b.take n := by
  induction n generalizing a b with
  | zero => simp [memcmp_zero]
  | succ n ih =>
      cases a with
      | nil => simp at ha
      | cons x xs =>
          cases b with
          | nil => simp at hb
          | cons y ys =>
              simp only [List.length_cons, Nat.succ_le_succ_iff] at ha hb
              rw [memcmp_cons, List.take_succ_cons, List.take_succ_cons]
              by_cases hxy : x = y
              · subst hxy
                rw [if_pos rfl, ih xs ys ha hb]
                simp
              · rw [if_neg hxy]
                constructor
                · intro hcon
                  exact absurd (by omega : x = y) hxy
                · intro hcon
                  injection hcon with h1 h2
                  omega

/-- The comparison `es_compare`, unfolded to its three-way form. -/
theorem es_compare_eq (r1 r2 : StringRef) :
    es_compare r1 r2 =
      if r1.size < r2.size then -1
      else if r2.size < r1.size then 1
      else memcmp r1.data r2.data r1.size := by
  unfold es_compare es_sizecmp
  by_cases h1 : r1.size < r2.size
  · simp [h1]
  · by_cases h2 : r2.size < r1.size
    · simp [h1, h2]
    · simp [h1, h2]

/-- Claim C8: `es_compare(A, B) = 0` iff `A` and `B` have equal length and
identical bytes, and `es_compare` is antisymmetric:
`es_compare(A, B) = -es_compare(B, A)` for every pair of views. -/
theorem claim_C8 (A B : StringRef)
    (hA : A.size ≤ A.data.length) (hB : B.size ≤ B.data.length) :
    (es_compare A B = 0 ↔ (A.size = B.size ∧ refBytes A = refBytes B)) ∧
    (∀ C D : StringRef, es_compare C D = -es_compare D C) := by
  constructor
  · rw [es_compare_eq]
    rcases Nat.lt_trichotomy A.size B.size with hlt | heq | hgt
    · rw [if_pos hlt]
      constructor
      · intro hcon
        exact absurd hcon (by norm_num)
      · rintro ⟨hsz, -⟩
        omega
    · rw [if_neg (by omega), if_neg (by omega),
          memcmp_eq_zero A.data B.data A.size hA (by omega)]
      unfold refBytes
      rw [heq]
      simp
    · rw [if_neg (by omega), if_pos hgt]
      constructor
      · intro hcon
        exact absurd hcon (by norm_num)
      · rintro ⟨hsz, -⟩
        omega
  · intro C D
    rw [es_compare_eq, es_compare_eq]
    rcases Nat.lt_trichotomy C.size D.size with hlt | heq | hgt
    · rw [if_pos hlt, if_neg (by omega), if_pos hlt]
    · rw [if_neg (by omega), if_neg (by omega), if_neg (by omega),
          if_neg (by omega), heq]
      exact memcmp_antisym C.data D.data D.size
    · rw [if_neg (by omega), if_pos hgt, if_pos hgt]
      norm_num

theorem activeBuf_length_ge (s : EString) (h : wf s) (hc : goodCap s) :
    s.size ≤ (activeBuf s).length := by
  cases hb : s.buf with
  | shortstr b =>
      have h' : shortstring s.size = true := by unfold wf at h; rwa [hb] at h
      have hc' : b.length = shortstrSize := by unfold goodCap at hc; rwa [hb] at hc
      have := shortstring_le _ h'
      simp only [activeBuf, hb]
      unfold shortstrSize at hc'
      omega
  | heap hh =>
      have hc' : hh.cap ≤ hh.data.length ∧ s.size ≤ hh.cap := by
        unfold goodCap at hc; rwa [hb] at hc
      simp only [activeBuf, hb]
      omega

theorem esBytes_length (s : EString) (h : wf s) (hc : goodCap s) :
    (esBytes s).length = s.size := by
  unfold esBytes
  rw [List.length_take]
  have := activeBuf_length_ge s h hc
  omega

theorem available_le_activeBuf (s : EString) (h : wf s) (hc : goodCap s) :
    available s ≤ (activeBuf s).length := by
  cases hb : s.buf with
  | shortstr b =>
      have h' : shortstring s.size = true := by unfold wf at h; rwa [hb] at h
      have hc' : b.length = shortstrSize := by unfold goodCap at hc; rwa [hb] at hc
      unfold available shortstring_optimized
      rw [if_pos h']
      simp only [activeBuf, hb]
      omega
  | heap hh =>
      have h' : shortstring s.size = false := by unfold wf at h; rwa [hb] at h
      have hc' : hh.cap ≤ hh.data.length ∧ s.size ≤ hh.cap := by
        unfold goodCap at hc; rwa [hb] at hc
      unfold available shortstring_optimized
      rw [if_neg (by rw [h']; simp)]
      simp only [activeBuf, hb]
      omega

theorem take_blit_mid (dst src : List Nat) (off : Nat)
    (h : off + src.length ≤ dst.length) :
    (blit dst off src).take (off + src.length) = dst.take off ++ src := by
  rw [blit_eq src dst off h]
  have h1 : (dst.take off).length = off := List.length_take_of_le (by omega)
  rw [List.append_assoc, List.take_append_eq_append_take, h1,
      List.take_of_length_le (by omega)]
  have h2 : off + src.length - off = src.length := by omega
  rw [h2, List.take_append_eq_append_take]
  simp

theorem autoallocAmount_ge (size hint : Nat) : hint ≤ autoallocAmount size hint := by
  unfold autoallocAmount
  split <;> omega

theorem take_blit_blit2 (dst a c : List Nat) (m k : Nat)
    (ha : a.length = m) (hc : c.length = k) (h : m + k ≤ dst.length) :
    (blit (blit dst 0 a) m c).take (m + k) = a ++ c := by
  subst ha
  subst hc
  exact take_blit_blit dst a c h

theorem es_append_nop (s1 : EString) (v : StringRef) (addr : Nat)
    (h0 : v.size = 0) : es_append s1 v addr = (s1, ⟨[], []⟩) := by
  simp [es_append, h0]

theorem es_append_realloc (s1 : EString) (v : StringRef) (addr : Nat)
    (h0 : v.size ≠ 0) (hre : available s1 < s1.size + v.size + 1) :
    es_append s1 v addr =
      (memSet (memcpyInto (memcpyInto
          (autoalloc (s1.size + v.size) (available s1 * 2) addr)
          0 (esBytes s1)) s1.size (refBytes v)) (s1.size + v.size) 0,
       ⟨[autoallocAmount (s1.size + v.size) (available s1 * 2)], es_free s1⟩) := by
  simp only [es_append]
  rw [if_neg h0, if_pos hre]

theorem es_append_inplace (s1 : EString) (v : StringRef) (addr : Nat)
    (h0 : v.size ≠ 0) (hre : ¬ available s1 < s1.size + v.size + 1) :
    es_append s1 v addr =
      (⟨(memSet (memcpyInto s1 s1.size (refBytes v)) (s1.size + v.size) 0).buf,
        s1.size + v.size⟩,
       ⟨[], []⟩) := by
  simp only [es_append]
  rw [if_neg h0, if_neg hre]

/-- Claim C2: `es_append(b, v)` is a strict no-op for an empty view;
otherwise the result holds `b`'s bytes followed by `v`'s bytes with the
summed length; it allocates nothing when the existing capacity holds the
final length plus the terminator, and otherwise performs exactly one
allocation whose requested size is at least twice the previous capacity,
freeing the old heap block only after the copies (the effect lists are in
program order). -/
theorem claim_C2 (b : EString) (v : StringRef) (addr : Nat)
    (hwf : wf b) (hcap : goodCap b) (hv : v.size ≤ v.data.length) :
    (v.size = 0 → es_append b v addr = (b, ⟨[], []⟩)) ∧
    (v.size ≠ 0 →
      (es_append b v addr).1.size = b.size + v.size ∧
      esBytes (es_append b v addr).1 = esBytes b ++ refBytes v ∧
      (b.size + v.size + 1 ≤ available b →
        (es_append b v addr).2 = ⟨[], []⟩) ∧
      (available b < b.size + v.size + 1 →
        (es_append b v addr).2.allocs =
          [autoallocAmount (b.size + v.size) (available b * 2)] ∧
        2 * available b ≤ autoallocAmount (b.size + v.size) (available b * 2) ∧
        (es_append b v addr).2.frees = es_free b)) := by
  have hblen : (esBytes b).length = b.size := esBytes_length b hwf hcap
  have hvlen : (refBytes v).length = v.size := by
    unfold refBytes
    rw [List.length_take]
    omega
  refine ⟨es_append_nop b v addr, fun h0 => ?_⟩
  by_cases hre : available b < b.size + v.size + 1
  · rw [es_append_realloc b v addr h0 hre]
    have hA := autoalloc_buf_length (b.size + v.size) (available b * 2) addr
    refine ⟨?_, ?_, fun hc => by omega, fun _ => ⟨rfl, ?_, rfl⟩⟩
    · rw [size_memSet, size_memcpyInto, size_memcpyInto, autoalloc_size]
    · unfold esBytes
      rw [size_memSet, size_memcpyInto, size_memcpyInto, autoalloc_size,
          activeBuf_memSet, activeBuf_memcpyInto, activeBuf_memcpyInto]
      rw [take_set_self]
      exact take_blit_blit2 _ _ _ _ _ hblen hvlen (by omega)
    · have := autoallocAmount_ge (b.size + v.size) (available b * 2)
      omega
  · rw [es_append_inplace b v addr h0 hre]
    have hfit : b.size + v.size + 1 ≤ (activeBuf b).length := by
      have := available_le_activeBuf b hwf hcap
      omega
    refine ⟨rfl, ?_, fun _ => rfl, fun hc => by omega⟩
    show ((activeBuf
        (memSet (memcpyInto b b.size (refBytes v)) (b.size + v.size) 0)).take
          (b.size + v.size)) = esBytes b ++ refBytes v
    rw [activeBuf_memSet, activeBuf_memcpyInto, take_set_self]
    rw [show b.size + v.size = b.size + (refBytes v).length by omega]
    rw [take_blit_mid _ _ _ (by omega)]
    rfl

theorem es_slices_empty_case (s : EString) (o n : Nat)
    (hz : update_slice_indexes s.size o n = 0) :
    es_slices s o n = (es_empty_string, ⟨[], es_free s⟩) := by
  simp only [es_slices]
  rw [if_pos hz]

theorem es_slices_toshort (s : EString) (o n : Nat)
    (hz : update_slice_indexes s.size o n ≠ 0)
    (hc : shortstring (update_slice_indexes s.size o n) = true ∧
      shortstring_optimized s = false) :
    es_slices s o n =
      ({ buf := .shortstr ((blit (List.replicate shortstrSize 0) 0
             (((activeBuf s).drop o).take (update_slice_indexes s.size o n))).set
             (update_slice_indexes s.size o n) 0),
         size := update_slice_indexes s.size o n },
       ⟨[], match s.buf with
            | .heap h => [h.addr]
            | .shortstr _ => []⟩) := by
  simp only [es_slices]
  rw [if_neg hz, if_pos hc]

theorem es_slices_else (s : EString) (o n : Nat)
    (hz : update_slice_indexes s.size o n ≠ 0)
    (hc : ¬ (shortstring (update_slice_indexes s.size o n) = true ∧
      shortstring_optimized s = false)) :
    es_slices s o n =
      ({ buf := (memSet (memcpyInto s 0
             (((activeBuf s).drop o).take (update_slice_indexes s.size o n)))
             (update_slice_indexes s.size o n) 0).buf,
         size := update_slice_indexes s.size o n },
       ⟨[], []⟩) := by
  simp only [es_slices]
  rw [if_neg hz, if_neg hc]

/-- The clamped size when the offset is in range. -/
theorem update_pos (m o n : Nat) (h : o < m) :
    update_slice_indexes m o n = min n (m - o) := by
  unfold update_slice_indexes min_size
  rw [if_neg (by omega), Nat.min_def]
  by_cases h2 : n < m - o
  · rw [if_pos h2, if_pos (by omega)]
  · rw [if_neg h2]
    by_cases h3 : n ≤ m - o
    · rw [if_pos h3]
      omega
    · rw [if_neg h3]

/-- The clamped size when the offset is out of range. -/
theorem update_ge (m o n : Nat) (h : m ≤ o) :
    update_slice_indexes m o n = 0 := by
  unfold update_slice_indexes
  rw [if_pos (by omega)]

theorem activeBuf_mk_buf (s : EString) (n : Nat) :
    activeBuf ⟨s.buf, n⟩ = activeBuf s := rfl

theorem sliceRHS (s : EString) (o n : Nat) (h : o < s.size) :
    ((esBytes s).drop o).take n
      = ((activeBuf s).drop o).take (update_slice_indexes s.size o n) := by
  unfold esBytes
  rw [List.drop_take, List.take_take, update_pos _ _ _ h]

theorem slice_src_length (s : EString) (o n : Nat)
    (hwf : wf s) (hcap : goodCap s) (h : o < s.size) :
    (((activeBuf s).drop o).take (update_slice_indexes s.size o n)).length
      = update_slice_indexes s.size o n := by
  have hl := activeBuf_length_ge s hwf hcap
  rw [List.length_take, List.length_drop, update_pos _ _ _ h, Nat.min_def]
  split <;> omega

/-- Claim C3: `es_slices` clamps with the same rule as view slicing
(`update_slice_indexes`; the content equation below states the result holds
exactly the bytes `(esBytes s).drop o |>.take n` that the clamped view
would denote): an empty result releases any heap block and resets to the
canonical empty string; a clamped size that newly fits inline copies the
sliced bytes into inline storage, writes the terminator, and frees the old
heap block; otherwise the bytes move within the same storage (for
`o = 0` the buffer is untouched except for the terminator byte), and in no
case is new memory allocated. -/
theorem claim_C3 (s : EString) (o n : Nat) (hwf : wf s) (hcap : goodCap s) :
    (es_slices s o n).2.allocs = [] ∧
    esBytes (es_slices s o n).1 = ((esBytes s).drop o).take n ∧
    (es_slices s o n).1.size = update_slice_indexes s.size o n ∧
    (update_slice_indexes s.size o n = 0 →
      es_slices s o n = (es_empty_string, ⟨[], es_free s⟩)) ∧
    (update_slice_indexes s.size o n ≠ 0 →
      (shortstring (update_slice_indexes s.size o n) = true →
          shortstring_optimized s = false →
        (∃ bb, (es_slices s o n).1.buf = StrBuf.shortstr bb) ∧
        nullTerminated (es_slices s o n).1 ∧
        (es_slices s o n).2.frees = es_free s) ∧
      ((shortstring (update_slice_indexes s.size o n) = false ∨
          shortstring_optimized s = true) →
        sameStorage s.buf (es_slices s o n).1.buf ∧
        (es_slices s o n).2.frees = [] ∧
        (o = 0 → activeBuf (es_slices s o n).1
            = (activeBuf s).set (update_slice_indexes s.size o n) 0))) := by
  have hl := activeBuf_length_ge s hwf hcap
  have hle := update_le s.size o n
  by_cases hz : update_slice_indexes s.size o n = 0
  · rw [es_slices_empty_case s o n hz]
    refine ⟨rfl, ?_, by simp [hz, es_empty_string], fun _ => rfl,
            fun hnz => absurd hz hnz⟩
    rw [esBytes_empty]
    by_cases ho : o < s.size
    · rw [sliceRHS s o n ho, hz]
      simp
    · rw [List.drop_eq_nil_of_le (by rw [esBytes_length s hwf hcap]; omega)]
      simp
  · have ho : o < s.size := by
      by_contra hge
      exact hz (update_ge s.size o n (by omega))
    have hsrc := slice_src_length s o n hwf hcap ho
    by_cases hc : shortstring (update_slice_indexes s.size o n) = true ∧
        shortstring_optimized s = false
    · rw [es_slices_toshort s o n hz hc]
      have hu15 := shortstring_le _ hc.1
      have hbl : (blit (List.replicate shortstrSize 0) 0
          (((activeBuf s).drop o).take (update_slice_indexes s.size o n))).length
          = shortstrSize := by
        rw [blit_length, List.length_replicate]
      refine ⟨rfl, ?_, rfl, fun hcon => absurd hcon hz, fun _ => ⟨fun _ _ => ?_, ?_⟩⟩
      · show ((blit (List.replicate shortstrSize 0) 0
            (((activeBuf s).drop o).take (update_slice_indexes s.size o n))).set
            (update_slice_indexes s.size o n) 0).take (update_slice_indexes s.size o n)
          = ((esBytes s).drop o).take n
        rw [take_set_self, sliceRHS s o n ho]
        exact take_blit_zero2 _ _ _ hsrc
          (by rw [hsrc, List.length_replicate]; unfold shortstrSize; omega)
      · refine ⟨⟨_, rfl⟩, ?_, ?_⟩
        · show ((blit (List.replicate shortstrSize 0) 0
              (((activeBuf s).drop o).take (update_slice_indexes s.size o n))).set
              (update_slice_indexes s.size o n) 0)[update_slice_indexes s.size o n]?
            = some 0
          rw [List.getElem?_set_self (by rw [hbl, shortstrSize]; omega)]
        · show (match s.buf with
              | StrBuf.heap h => [h.addr]
              | StrBuf.shortstr _ => ([] : List Nat)) = es_free s
          unfold es_free
          rw [if_neg (by rw [hc.2]; simp)]
      · intro hcon
        rcases hcon with hcon | hcon
        · exact absurd hc.1 (by rw [hcon]; simp)
        · exact absurd hc.2 (by rw [hcon]; simp)
    · rw [es_slices_else s o n hz hc]
      have hfit : (((activeBuf s).drop o).take
          (update_slice_indexes s.size o n)).length ≤ (activeBuf s).length := by
        omega
      have hset : activeBuf ⟨(memSet (memcpyInto s 0
            (((activeBuf s).drop o).take (update_slice_indexes s.size o n)))
            (update_slice_indexes s.size o n) 0).buf,
          update_slice_indexes s.size o n⟩
          = (blit (activeBuf s) 0
              (((activeBuf s).drop o).take (update_slice_indexes s.size o n))).set
              (update_slice_indexes s.size o n) 0 := by
        rw [activeBuf_mk_buf, activeBuf_memSet, activeBuf_memcpyInto]
      refine ⟨rfl, ?_, rfl, fun hcon => absurd hcon hz,
              fun _ => ⟨fun hc1 hc2 => absurd ⟨hc1, hc2⟩ hc, fun _ => ⟨?_, rfl, ?_⟩⟩⟩
      · show (activeBuf ⟨(memSet (memcpyInto s 0
              (((activeBuf s).drop o).take (update_slice_indexes s.size o n)))
              (update_slice_indexes s.size o n) 0).buf,
            update_slice_indexes s.size o n⟩).take (update_slice_indexes s.size o n)
          = ((esBytes s).drop o).take n
        rw [hset, take_set_self, sliceRHS s o n ho]
        exact take_blit_zero2 _ _ _ hsrc hfit
      · show sameStorage s.buf (memSet (memcpyInto s 0
            (((activeBuf s).drop o).take (update_slice_indexes s.size o n)))
            (update_slice_indexes s.size o n) 0).buf
        cases hb : s.buf with
        | shortstr b => simp [memSet, memcpyInto, hb, sameStorage]
        | heap hh =>
            simp only [memSet, memcpyInto, hb]
            exact ⟨rfl, rfl⟩
      · intro ho0
        rw [hset]
        subst ho0
        rw [List.drop_zero] at hsrc ⊢
        congr 1
        rw [blit_zero_eq _ _ (by rw [hsrc]; omega)]
        rw [hsrc]
        exact List.take_append_drop _ _

theorem getElem?_drop_own : ∀ (l : List Nat) (m i : Nat), (l.drop m)[i]? = l[m + i]?
  | l, 0, i => by simp
  | [], m + 1, i => by simp
  | x :: xs, m + 1, i => by
      rw [List.drop_succ_cons, getElem?_drop_own xs m i,
          show m + 1 + i = m + i + 1 by omega]
      simp [List.getElem?_cons_succ]

theorem nullTerminated_autoalloc (size hint addr : Nat) :
    nullTerminated (autoalloc size hint addr) := by
  unfold nullTerminated
  rw [autoalloc_activeBuf, autoalloc_size]
  have hlt : size <
      (if shortstring size then shortstrSize else autoallocAmount size hint) := by
    cases h : shortstring size with
    | true =>
        have := shortstring_le _ h
        rw [if_pos rfl]
        unfold shortstrSize
        omega
    | false =>
        rw [if_neg (by simp)]
        unfold autoallocAmount
        split <;> omega
  rw [List.getElem?_replicate, if_pos hlt]

theorem nullTerminated_memcpyInto (s : EString) (off : Nat) (src : List Nat)
    (hterm : nullTerminated s) (hfit : off + src.length ≤ s.size) :
    nullTerminated (memcpyInto s off src) := by
  unfold nullTerminated at hterm ⊢
  rw [activeBuf_memcpyInto, size_memcpyInto]
  have hsz : s.size < (activeBuf s).length := by
    by_contra hcon
    push_neg at hcon
    rw [List.getElem?_eq_none hcon] at hterm
    exact absurd hterm (by simp)
  rw [blit_eq src _ off (by omega)]
  have h1 : ((activeBuf s).take off ++ src).length = off + src.length := by
    rw [List.length_append, List.length_take_of_le (by omega)]
  rw [List.getElem?_append_right (by rw [h1]; omega), h1, getElem?_drop_own,
      show off + src.length + (s.size - (off + src.length)) = s.size by omega]
  exact hterm

/-- Claim C7 counterexample: adopting a 17-byte heap block containing no
zero byte yields a live String with no terminator at index `size` — the
`es_move_cstr*` functions deliberately do not add one (the header comment
says so), contradicting the claim that every operation's result carries
the sentinel. -/
theorem claim_C7_counterexample :
    ¬ nullTerminated (es_move_cstrn 3 (List.replicate 17 1) 17).1 := by
  decide

/-- Claim C7 (amended): every live String produced by copy, formatted
build, concatenate, append (into a terminated, well-formed buffer) or
slice-in-place carries a sentinel zero byte at index `size`, and `es_move`
preserves the property; adoption (`es_move_cstrn`) guarantees the sentinel
only when the length falls under the inline threshold (the bytes are
copied and a terminator written) or when the adopted memory itself already
holds a zero at index `size` — a heap-size adoption keeps the caller's
bytes verbatim, terminator or not. -/
theorem claim_C7 :
    nullTerminated es_empty_string ∧
    (∀ r addr, nullTerminated (es_copy r addr)) ∧
    (∀ out addr, nullTerminated (es_printf out addr)) ∧
    (∀ r1 r2 addr, nullTerminated (es_cat r1 r2 addr)) ∧
    (∀ s v addr, wf s → goodCap s → nullTerminated s →
      nullTerminated (es_append s v addr).1) ∧
    (∀ s o n, nullTerminated s → nullTerminated (es_slices s o n).1) ∧
    (∀ addr data n, shortstring n = true →
      nullTerminated (es_move_cstrn addr data n).1) ∧
    (∀ addr data n, shortstring n = false → data[n]? = some 0 →
      nullTerminated (es_move_cstrn addr data n).1) ∧
    (∀ s, nullTerminated s →
      nullTerminated (es_move s).1 ∧ nullTerminated (es_move s).2) := by
  have hempty : nullTerminated es_empty_string := by decide
  refine ⟨hempty, ?_, ?_, ?_, ?_, ?_, ?_, ?_, ?_⟩
  · intro r addr
    apply nullTerminated_memcpyInto _ _ _ (nullTerminated_autoalloc _ _ _)
    rw [autoalloc_size, refBytes, List.length_take]
    omega
  · intro out addr
    unfold es_printf
    by_cases h0 : out.length = 0
    · rw [if_pos h0]
      exact hempty
    · rw [if_neg h0]
      apply nullTerminated_memcpyInto _ _ _ (nullTerminated_autoalloc _ _ _)
      rw [autoalloc_size]
      omega
  · intro r1 r2 addr
    unfold es_cat
    apply nullTerminated_memcpyInto
    · apply nullTerminated_memcpyInto _ _ _ (nullTerminated_autoalloc _ _ _)
      rw [autoalloc_size, refBytes, List.length_take]
      omega
    · rw [size_memcpyInto, autoalloc_size, refBytes, List.length_take]
      omega
  · intro s v addr hwf hcap hterm
    by_cases h0 : v.size = 0
    · rw [es_append_nop s v addr h0]
      exact hterm
    · by_cases hre : available s < s.size + v.size + 1
      · rw [es_append_realloc s v addr h0 hre]
        unfold nullTerminated
        rw [activeBuf_memSet, size_memSet, size_memcpyInto, size_memcpyInto,
            autoalloc_size, activeBuf_memcpyInto, activeBuf_memcpyInto]
        apply List.getElem?_set_self
        rw [blit_length, blit_length]
        have := autoalloc_buf_length (s.size + v.size) (available s * 2) addr
        omega
      · rw [es_append_inplace s v addr h0 hre]
        unfold nullTerminated
        rw [activeBuf_mk_buf, activeBuf_memSet, activeBuf_memcpyInto]
        show ((blit (activeBuf s) s.size (refBytes v)).set (s.size + v.size) 0)[
          s.size + v.size]? = some 0
        apply List.getElem?_set_self
        rw [blit_length]
        have := available_le_activeBuf s hwf hcap
        omega
  · intro s o n hterm
    have hlen : s.size < (activeBuf s).length := by
      by_contra hcon
      push_neg at hcon
      unfold nullTerminated at hterm
      rw [List.getElem?_eq_none hcon] at hterm
      exact absurd hterm (by simp)
    have hle := update_le s.size o n
    by_cases hz : update_slice_indexes s.size o n = 0
    · rw [es_slices_empty_case s o n hz]
      exact hempty
    · by_cases hc : shortstring (update_slice_indexes s.size o n) = true ∧
          shortstring_optimized s = false
      · rw [es_slices_toshort s o n hz hc]
        unfold nullTerminated
        show ((blit (List.replicate shortstrSize 0) 0
            (((activeBuf s).drop o).take (update_slice_indexes s.size o n))).set
            (update_slice_indexes s.size o n) 0)[update_slice_indexes s.size o n]?
          = some 0
        apply List.getElem?_set_self
        rw [blit_length, List.length_replicate]
        have := shortstring_le _ hc.1
        unfold shortstrSize
        omega
      · rw [es_slices_else s o n hz hc]
        unfold nullTerminated
        rw [activeBuf_mk_buf, activeBuf_memSet, activeBuf_memcpyInto]
        show ((blit (activeBuf s) 0
            (((activeBuf s).drop o).take (update_slice_indexes s.size o n))).set
            (update_slice_indexes s.size o n) 0)[update_slice_indexes s.size o n]?
          = some 0
        apply List.getElem?_set_self
        rw [blit_length]
        omega
  · intro addr data n h
    unfold es_move_cstrn nullTerminated
    rw [if_pos h]
    show ((blit (List.replicate shortstrSize 0) 0 (data.take n)).set n 0)[n]?
      = some 0
    apply List.getElem?_set_self
    rw [blit_length, List.length_replicate]
    have := shortstring_le _ h
    unfold shortstrSize
    omega
  · intro addr data n h hz
    unfold es_move_cstrn nullTerminated
    rw [if_neg (by rw [h]; simp)]
    exact hz
  · intro s hterm
    unfold es_move
    cases h : shortstring_optimized s with
    | true => exact ⟨hterm, by rw [if_pos rfl]; exact hterm⟩
    | false => exact ⟨hterm, by rw [if_neg (by simp)]; exact hempty⟩

theorem digitsVal_le (l : List Nat) : ∀ acc : Nat, acc ≤ digitsVal acc l := by
  induction l with
  | nil => intro acc; exact Nat.le_refl _
  | cons c rest ih =>
      intro acc
      have hstep : digitsVal acc (c :: rest) = digitsVal (acc * 10 + (c - 48)) rest := rfl
      have h2 := ih (acc * 10 + (c - 48))
      rw [hstep]
      omega

/-- The `es_toul` digit loop computes the value of the leading digit run,
failing exactly when that value reaches `2^64` (the two overflow checks in
the C code fire iff the exact value would not fit in `unsigned long`). -/
theorem toulGo_spec (l : List Nat) : ∀ count i : Nat, count < ulongMod →
    toulGo l count i =
      if ulongMod ≤ digitsVal count (l.takeWhile isDigit) then none
      else some (digitsVal count (l.takeWhile isDigit),
                 i + (l.takeWhile isDigit).length) := by
  induction l with
  | nil =>
      intro count i hc
      rw [show toulGo [] count i = some (count, i) from rfl, List.takeWhile_nil,
          show digitsVal count [] = count from rfl, if_neg (by omega)]
      rfl
  | cons c rest ih =>
      intro count i hc
      by_cases hdig : isDigit c = true
      · have hd48 : 48 ≤ c ∧ c ≤ 57 := by simpa [isDigit] using hdig
        have hcv : char_value c = (c : Int) - 48 := by
          unfold char_value
          rw [if_neg (by omega)]
        have hne : ¬ char_value c = -1 := by rw [hcv]; omega
        have htoNat : (char_value c).toNat = c - 48 := by rw [hcv]; omega
        have htw : (c :: rest).takeWhile isDigit = c :: rest.takeWhile isDigit :=
          List.takeWhile_cons_of_pos hdig
        have hdv : digitsVal count ((c :: rest).takeWhile isDigit)
            = digitsVal (count * 10 + (c - 48)) (rest.takeWhile isDigit) := by
          rw [htw]
          rfl
        have hdl := digitsVal_le (rest.takeWhile isDigit) (count * 10 + (c - 48))
        simp only [toulGo]
        rw [if_neg hne, htoNat]
        by_cases hov1 : count * 10 % ulongMod / 10 ≠ count
        · rw [if_pos hov1]
          have hged : ulongMod ≤ count * 10 := by
            by_contra hlt
            push_neg at hlt
            rw [Nat.mod_eq_of_lt hlt, Nat.mul_div_cancel count (by norm_num)] at hov1
            exact hov1 rfl
          rw [hdv, if_pos (by omega)]
        · rw [if_neg hov1]
          push_neg at hov1
          have hlt10 : count * 10 < ulongMod := by
            by_contra hge
            push_neg at hge
            unfold ulongMod at hc hge hov1
            omega
          rw [Nat.mod_eq_of_lt hlt10]
          by_cases hov2 : (count * 10 + (c - 48)) % ulongMod < count
          · rw [if_pos hov2]
            have hge2 : ulongMod ≤ count * 10 + (c - 48) := by
              by_contra hlt2
              push_neg at hlt2
              rw [Nat.mod_eq_of_lt hlt2] at hov2
              omega
            rw [hdv, if_pos (by omega)]
          · rw [if_neg hov2]
            have hlt2 : count * 10 + (c - 48) < ulongMod := by
              by_contra hge2
              push_neg at hge2
              unfold ulongMod at hc hov2 hlt10 hge2
              omega
            rw [Nat.mod_eq_of_lt hlt2, hdv, htw, List.length_cons]
            rw [ih (count * 10 + (c - 48)) (i + 1) hlt2]
            rw [show i + 1 + (rest.takeWhile isDigit).length
                = i + ((rest.takeWhile isDigit).length + 1) by omega]
      · have hnd : ¬ (48 ≤ c ∧ c ≤ 57) := by
          intro hcc
          exact hdig (by simpa [isDigit] using hcc)
        have hne : char_value c = -1 := by
          unfold char_value
          rw [if_pos (by omega)]
        have htw : (c :: rest).takeWhile isDigit = [] :=
          List.takeWhile_cons_of_neg hdig
        simp only [toulGo]
        rw [if_pos hne, htw, show digitsVal count [] = count from rfl,
            if_neg (by omega)]
        rfl

/-- Claim C9: `es_toul` follows the digits-until-non-digit policy — parsing
`"123abc"` succeeds with value 123 — and fails exactly when the view is
empty, its first character is not a decimal digit, or the leading digit
run overflows the 64-bit `unsigned long`; on failure the out-parameter is
unwritten (the `none` of the model; the C code assigns `*result` only on
its return-0 path), and on success the stored value is the value of the
leading digit run. -/
theorem claim_C9 (r : StringRef) (h : r.size ≤ r.data.length) :
    es_toul ⟨false, [49, 50, 51, 97, 98, 99], 6⟩ = some 123 ∧
    (es_toul r = none ↔
      (r.size = 0 ∨
       (∃ c rest, refBytes r = c :: rest ∧ isDigit c = false) ∨
       ulongMod ≤ digitsVal 0 ((refBytes r).takeWhile isDigit))) ∧
    (∀ v, es_toul r = some v →
      v = digitsVal 0 ((refBytes r).takeWhile isDigit)) := by
  have hspec := toulGo_spec (refBytes r) 0 0 (by unfold ulongMod; norm_num)
  have hreflen : (refBytes r).length = r.size := by
    unfold refBytes
    rw [List.length_take]
    omega
  refine ⟨by decide, ?_, ?_⟩
  · unfold es_toul
    rw [hspec]
    by_cases hov : ulongMod ≤ digitsVal 0 ((refBytes r).takeWhile isDigit)
    · rw [if_pos hov]
      exact iff_of_true rfl (Or.inr (Or.inr hov))
    · rw [if_neg hov]
      by_cases hlen : ((refBytes r).takeWhile isDigit).length = 0
      · have hnone : (if 0 + ((refBytes r).takeWhile isDigit).length = 0 then
            (none : Option Nat)
            else some (digitsVal 0 ((refBytes r).takeWhile isDigit))) = none := by
          rw [if_pos (by omega)]
        apply iff_of_true hnone
        cases hq : refBytes r with
        | nil =>
            left
            rw [hq] at hreflen
            simpa using hreflen.symm
        | cons c rest =>
            right
            left
            refine ⟨c, rest, rfl, ?_⟩
            cases hcc : isDigit c with
            | false => rfl
            | true =>
                rw [hq, List.takeWhile_cons_of_pos hcc] at hlen
                simp at hlen
      · have hsome : (if 0 + ((refBytes r).takeWhile isDigit).length = 0 then
            (none : Option Nat)
            else some (digitsVal 0 ((refBytes r).takeWhile isDigit)))
            = some (digitsVal 0 ((refBytes r).takeWhile isDigit)) := by
          rw [if_neg (by omega)]
        apply iff_of_false
        · show (if 0 + ((refBytes r).takeWhile isDigit).length = 0 then
              (none : Option Nat)
              else some (digitsVal 0 ((refBytes r).takeWhile isDigit))) = none →
            False
          rw [hsome]
          simp
        · rintro (h1 | ⟨c, rest, hcr, hcd⟩ | h3)
          · have hemp : refBytes r = [] := by
              unfold refBytes
              rw [h1]
              exact List.take_zero _
            rw [hemp, List.takeWhile_nil] at hlen
            exact hlen rfl
          · rw [hcr, List.takeWhile_cons_of_neg (by simp [hcd])] at hlen
            exact hlen rfl
          · exact hov h3
  · intro v hv
    unfold es_toul at hv
    rw [hspec] at hv
    by_cases hov : ulongMod ≤ digitsVal 0 ((refBytes r).takeWhile isDigit)
    · rw [if_pos hov] at hv
      have hv2 : (none : Option Nat) = some v := hv
      exact absurd hv2 (by simp)
    · rw [if_neg hov] at hv
      have hv2 : (if 0 + ((refBytes r).takeWhile isDigit).length = 0 then
          (none : Option Nat)
          else some (digitsVal 0 ((refBytes r).takeWhile isDigit))) = some v := hv
      by_cases hlen : ((refBytes r).takeWhile isDigit).length = 0
      · rw [if_pos (by omega)] at hv2
        exact absurd hv2 (by simp)
      · rw [if_neg (by omega)] at hv2
        injection hv2 with hv3
        exact hv3.symm

/-- Witness for C2: appending two bytes to the empty string, hypotheses
discharged at the concrete input. -/
theorem claim_C2_witness :
    wf es_empty_string ∧ goodCap es_empty_string ∧
    (es_append es_empty_string ⟨false, [104, 105], 2⟩ 7).1.size = 0 + 2 :=
  ⟨by decide, by decide,
   ((claim_C2 es_empty_string ⟨false, [104, 105], 2⟩ 7 (by decide) (by decide)
      (by decide)).2 (by decide)).1⟩

/-- Witness for C3: slicing a concrete heap-backed string allocates
nothing. -/
theorem claim_C3_witness :
    (es_slices ⟨StrBuf.heap ⟨5, List.replicate 21 7, 21⟩, 20⟩ 3 10).2.allocs
      = [] :=
  (claim_C3 ⟨StrBuf.heap ⟨5, List.replicate 21 7, 21⟩, 20⟩ 3 10
    (by decide) (by decide)).1

/-- Witness for C6: an out-of-range slice of a concrete view is the
canonical empty view. -/
theorem claim_C6_witness :
    es_slice ⟨false, [9, 8, 7], 3⟩ 5 2 = ⟨false, [0], 0⟩ :=
  (claim_C6 ⟨false, [9, 8, 7], 3⟩ 5 2 rfl).1 (by decide)

/-- Witness for C8: antisymmetry at a concrete pair of views. -/
theorem claim_C8_witness :
    es_compare ⟨false, [1, 2], 2⟩ ⟨false, [1, 3], 2⟩
      = -es_compare ⟨false, [1, 3], 2⟩ ⟨false, [1, 2], 2⟩ :=
  (claim_C8 ⟨false, [1, 2], 2⟩ ⟨false, [1, 3], 2⟩ (by decide) (by decide)).2
    ⟨false, [1, 2], 2⟩ ⟨false, [1, 3], 2⟩

/-- Witness for C9: the concrete parse of the view over bytes of
"123abc". -/
theorem claim_C9_witness :
    es_toul ⟨false, [49, 50, 51, 97, 98, 99], 6⟩ = some 123 :=
  (claim_C9 ⟨false, [49, 50, 51, 97, 98, 99], 6⟩ (by decide)).1

end EasyString
